import Mathlib

/-!
Shallow embedding of the flash-dns core (message codec, domain filter,
cache engine, upstream resolver front-end) and proofs of the spec claims.

Byte buffers are modelled as `List Nat` (one element per byte); machine
16/32-bit reads and writes are expressed with explicit `% 256` digit
arithmetic.  Wall-clock instants are modelled as integer seconds.
-/

namespace FlashDNS

/-- Read a big-endian 16-bit value at offset `i` (Go `binary.BigEndian.Uint16`). -/
def be16 (b : List Nat) (i : Nat) : Nat :=
  256 * b.getD i 0 + b.getD (i + 1) 0

/-- Read a big-endian 32-bit value at offset `i` (Go `binary.BigEndian.Uint32`). -/
def be32 (b : List Nat) (i : Nat) : Nat :=
  16777216 * b.getD i 0 + 65536 * b.getD (i + 1) 0
    + 256 * b.getD (i + 2) 0 + b.getD (i + 3) 0

/-- Write a big-endian 16-bit value at offset `i`
(Go `binary.BigEndian.PutUint16`: writes exactly two bytes). -/
def putU16 (b : List Nat) (i v : Nat) : List Nat :=
  (b.set i (v / 256 % 256)).set (i + 1) (v % 256)

/-! ## Message codec (`internal/filter/filter.go`, `internal/utils/parsing.go`) -/

/-- `CreateBlockedResponse`: copy the query, overwrite flags (offset 2) with
`0x8183` and the answer count (offset 6) with `0`; queries shorter than the
12-byte header are returned unchanged. -/
def CreateBlockedResponse (query : List Nat) : List Nat :=
  if query.length < 12 then query
  else putU16 (putU16 query 2 0x8183) 6 0

/-- `CreateNullResponse`: copy the query into a buffer 16 bytes longer, set
flags `0x8180` and answer count `1`, then append the synthetic answer:
compression pointer `C0 0C`, type `1`, class `1`, a TTL field, rdlength `4`
and four zero rdata bytes.  The source writes the TTL with
`binary.BigEndian.PutUint16(response[position:position+4], 60)`, i.e. a
two-byte write into the four-byte TTL slot; the two remaining TTL bytes keep
the zero value they were allocated with. -/
def CreateNullResponse (query : List Nat) : List Nat :=
  if query.length < 12 then query
  else
    let response := query ++ List.replicate 16 0
    let response := putU16 response 2 0x8180
    let response := putU16 response 6 1
    let p := query.length
    let response := (response.set p 0xC0).set (p + 1) 0x0C
    let response := putU16 response (p + 2) 1
    let response := putU16 response (p + 4) 1
    let response := putU16 response (p + 6) 60
    let response := putU16 response (p + 10) 4
    (response).take (p + 16)

/-- Decoded query data (`utils.QueryInfo`). -/
structure QueryInfo where
  Domain : String
  CacheKey : String
  QType : Nat
  QClass : Nat
deriving Repr, DecidableEq

/-- The bytes `q[position .. position+len)` as a string (the label text the
source appends with `builder.Write`). -/
def labelString (q : List Nat) (position len : Nat) : String :=
  String.mk (((q.drop position).take len).map Char.ofNat)

/-- The label-walking loop of `ParseQuery`: starting at `position`, a zero
length byte terminates (one byte consumed), a byte `≥ 192` is a compression
pointer skipped as two bytes, and otherwise the byte is a label length whose
bytes are appended to the accumulated domain (dot-separated); a label running
past the buffer end is the `invalid domain name length` error (`none`).
Returns the domain together with the position one past the name.  `fuel`
bounds the iteration count of the source's unbounded `for` loop: every
iteration advances `position`, so `q.length + 1` iterations always suffice,
and `parseLoop_fuel` below shows the result is fuel-independent from there
on. -/
def parseLoop (q : List Nat) (fuel position : Nat) (acc : String) :
    Option (String × Nat) :=
  match fuel with
  | 0 => none
  | fuel + 1 =>
    if position < q.length then
      let len := q.getD position 0
      if len = 0 then some (acc, position + 1)
      else if 192 ≤ len then parseLoop q fuel (position + 2) acc
      else
        let acc' := if 0 < acc.length then acc ++ "." else acc
        if q.length < position + 1 + len then none
        else parseLoop q fuel (position + 1 + len) (acc' ++ labelString q (position + 1) len)
    else some (acc, position)

/-- `utils.ParseQuery`: reject buffers under 12 bytes, walk the name starting
at offset 12, reject when fewer than 4 bytes remain for qtype/qclass, and
otherwise build the `QueryInfo` with cache key `"<domain>:<qtype>"`. -/
def ParseQuery (q : List Nat) : Option QueryInfo :=
  if q.length < 12 then none
  else
    match parseLoop q (q.length + 1) 12 "" with
    | none => none
    | some (domain, position) =>
      if q.length < position + 4 then none
      else
        let qtype := be16 q position
        some { Domain := domain, CacheKey := domain ++ ":" ++ toString qtype,
               QType := qtype, QClass := be16 q (position + 2) }

/-- Modelled from the spec's description of the name walk (§4.1): scan the
label chain from `p`, returning `none` when a label length extends past the
buffer end and otherwise the position one past the name (a zero byte
terminates, a pointer byte is skipped as two bytes, reaching the buffer end
also ends the walk). -/
def specScan (q : List Nat) (fuel p : Nat) : Option Nat :=
  match fuel with
  | 0 => none
  | fuel + 1 =>
    if p < q.length then
      let len := q.getD p 0
      if len = 0 then some (p + 1)
      else if 192 ≤ len then specScan q fuel (p + 2)
      else if q.length < p + 1 + len then none
      else specScan q fuel (p + 1 + len)
    else some p

/-- The loop body of `utils.skipName`, with `fuel` bounding the iteration
count of the source's unbounded `for` loop (each iteration advances
`position`, so `p.length + 1` iterations always suffice). -/
def skipNameLoop (p : List Nat) (fuel position : Nat) : Nat :=
  match fuel with
  | 0 => position
  | fuel + 1 =>
    if position < p.length then
      let b := p.getD position 0
      if b &&& 0xC0 = 0xC0 then position + 2
      else if b = 0 then position + 1
      else skipNameLoop p fuel (position + 1 + b)
    else position

/-- `utils.skipName`: advance `position` past a (possibly compressed) name;
a byte with the two top bits set is a two-byte pointer, a zero byte
terminates, and otherwise the byte is a label length. -/
def skipName (p : List Nat) (position : Nat) : Nat :=
  skipNameLoop p (p.length + 1) position

/-- The question-skipping loop of `ExtractTTL`: skip `count` names, each
followed by 4 bytes of qtype/qclass. -/
def questionLoop (resp : List Nat) (count position : Nat) : Nat :=
  match count with
  | 0 => position
  | c + 1 => questionLoop resp c (skipName resp position + 4)

/-- The answer loop of `ExtractTTL`: for each record skip the name, stop if
fewer than 10 bytes remain, otherwise read the 32-bit TTL at offset 4 of the
fixed record part, keep the running minimum, and advance by 10 plus the
record's rdlength. -/
def answerLoop (resp : List Nat) (count position minTTL : Nat) : Nat :=
  match count with
  | 0 => minTTL
  | c + 1 =>
    let position := skipName resp position
    if resp.length < position + 10 then minTTL
    else
      let ttl := be32 resp (position + 4)
      let minTTL := if ttl < minTTL then ttl else minTTL
      let rdlen := be16 resp (position + 8)
      answerLoop resp c (position + 10 + rdlen) minTTL

/-- `utils.ExtractTTL`: 300 for buffers under 12 bytes; otherwise skip the
question section and fold the answer records' TTLs with start value 3600. -/
def ExtractTTL (response : List Nat) : Nat :=
  if response.length < 12 then 300
  else
    let questions := be16 response 4
    let answers := be16 response 6
    answerLoop response answers (questionLoop response questions 12) 3600

/-! ## Domain filter (`internal/filter/filter.go`) -/

/-- Whitespace as trimmed by Go `strings.TrimSpace` (`unicode.IsSpace`),
restricted to Latin-1 code points. -/
def isSpaceByte (c : Char) : Bool :=
  c = ' ' || c = '\t' || c = '\n' || c = '\x0b' || c = '\x0c' || c = '\r'
    || c = '\x85' || c = '\xa0'

/-- Go `strings.TrimSpace` on the character list of a string. -/
def trimSpace (s : List Char) : List Char :=
  ((s.dropWhile isSpaceByte).reverse.dropWhile isSpaceByte).reverse

/-- Go `strings.ToLower` (ASCII case folding, which covers every domain the
program handles). -/
def toLowerStr (s : List Char) : List Char :=
  s.map Char.toLower

/-- Go `strings.TrimSuffix s "."`: remove one trailing dot when present. -/
def trimDot (s : List Char) : List Char :=
  if s.getLast? = some '.' then s.dropLast else s

/-- The filter's domain set: the key set of `FilterList.domains`
(`map[string]bool`), as a duplicate-free list of character lists. -/
abbrev FilterSet := List (List Char)

/-- `FilterList.Add`: normalize (lower-case, trim whitespace) and insert. -/
def FilterList.Add (f : FilterSet) (domain : List Char) : FilterSet :=
  let d := toLowerStr (trimSpace domain)
  if f.contains d then f else d :: f

/-- Strip the leftmost label: everything up to and including the first `'.'`.
`none` when the domain has no dot left (`strings.IndexRune` returns -1). -/
def stripLabel (d : List Char) : Option (List Char) :=
  match d.dropWhile (fun c => c ≠ '.') with
  | [] => none
  | _ :: rest => some rest

theorem stripLabel_length {d rest : List Char} (h : stripLabel d = some rest) :
    rest.length < d.length := by
  unfold stripLabel at h
  split at h
  · exact absurd h (by simp)
  next c rest' heq =>
    have hrest : rest' = rest := by injection h
    subst hrest
    have hsuf : c :: rest' <:+ d := heq ▸ List.dropWhile_suffix _
    have hlen := hsuf.length_le
    simp at hlen
    omega

/-- The membership-check loop of `IsBlocked`: return true when the current
domain is in the set, otherwise strip the leftmost label and retry; return
false once no dot remains.  `fuel` bounds the iteration count of the
source's unbounded `for` loop: every strip shortens the domain, so
`d.length + 1` iterations always suffice. -/
def blockedLoop (f : FilterSet) (fuel : Nat) (d : List Char) : Bool :=
  match fuel with
  | 0 => false
  | fuel + 1 =>
    if List.contains f d then true
    else
      match stripLabel d with
      | none => false
      | some rest => blockedLoop f fuel rest

/-- `FilterList.IsBlocked`: normalize the query domain with
`ToLower (TrimSpace (TrimSuffix domain "."))` and run the suffix-climbing
membership loop. -/
def FilterList.IsBlocked (f : FilterSet) (domain : List Char) : Bool :=
  let d := toLowerStr (trimSpace (trimDot domain))
  blockedLoop f (d.length + 1) d

/-- The proper suffixes of `d` that start immediately after a `'.'`, in
order: exactly the parents `IsBlocked` climbs through. -/
def dotSuffixes : List Char → List (List Char)
  | [] => []
  | c :: rest =>
    if c = '.' then rest :: dotSuffixes rest else dotSuffixes rest

/-- The chain of domains the loop of `IsBlocked` visits: the domain itself
and every parent obtained by repeatedly stripping the leftmost label. -/
def domainParents (d : List Char) : List (List Char) :=
  d :: dotSuffixes d

/-- Go `strings.HasPrefix` on character lists. -/
def startsWithChars : List Char → List Char → Bool
  | _, [] => true
  | [], _ :: _ => false
  | c :: s, p :: ps => c = p && startsWithChars s ps

/-- Leftmost occurrence of `||` that is followed by at least one character:
the tail of the line after that `||` (the part `(.*)\^$` must match). -/
def findBars : List Char → Option (List Char)
  | '|' :: '|' :: c :: rest => some (c :: rest)
  | _ :: rest => findBars rest
  | [] => none

/-- Go `regex.FindStringSubmatch` for the pattern `\|\|(.*)\^$` (leftmost
match, greedy `.*`, `$` anchored at the line end): the captured group, or
`none` when the line does not match. -/
def regexCapture (line : List Char) : Option (List Char) :=
  match findBars line with
  | none => none
  | some tailPart =>
    if tailPart.getLast? = some '^' then some tailPart.dropLast else none

/-- Running state of the `LoadFromFile` scan loop: the filter set plus the
`count` of domains added so far. -/
structure LoadState where
  f : FilterSet
  count : Nat

/-- One iteration of the `LoadFromFile` loop: trim the line; skip it when it
is blank or starts with `!`, `[` or `@@`; otherwise add the regex capture
(and bump `count`) when the line matches, and ignore the line when it does
not. -/
def processLine (st : LoadState) (rawLine : List Char) : LoadState :=
  let line := trimSpace rawLine
  if line.isEmpty || startsWithChars line ['!'] || startsWithChars line ['[']
      || startsWithChars line ['@', '@'] then st
  else
    match regexCapture line with
    | none => st
    | some d => { f := FilterList.Add st.f d, count := st.count + 1 }

/-- `FilterList.LoadFromFile` restricted to its observable effect on the
filter: fold the loop body over the scanned lines and propagate the
scanner's I/O error (`scanner.Err()`), which is independent of the lines'
contents.  The domain count is reported through the log line
`Loaded %d domains to Filter`. -/
def FilterList.LoadFromFile (f : FilterSet) (lines : List (List Char))
    (scanErr : Option String) : FilterSet × Nat × Option String :=
  let st := lines.foldl processLine ⟨f, 0⟩
  (st.f, st.count, scanErr)

/-- Line classification used to state C9: after trimming, a line is skipped
when it is blank or starts with `!`, `[` or `@@`. -/
def skippedLine (rawLine : List Char) : Bool :=
  let line := trimSpace rawLine
  line.isEmpty || startsWithChars line ['!'] || startsWithChars line ['[']
    || startsWithChars line ['@', '@']

/-- A line that is not skipped and matches the `||<domain>^` pattern — the
lines `LoadFromFile` counts. -/
def addedLine (rawLine : List Char) : Bool :=
  !skippedLine rawLine && (regexCapture (trimSpace rawLine)).isSome

/-! ## Cache engine (`internal/cache/cache.go`)

Instants are integer seconds; the source's `float64` score arithmetic in
`evictOne` is modelled with exact rationals, and the sub-second fraction of
`time.Now()` is dropped (the source itself stores last-access at second
granularity via `Unix()`). -/

def CACHE_MAX_SIZE : Nat := 1024

/-- `GRACE_PERIOD = 5 * time.Minute`, in seconds. -/
def GRACE_PERIOD : Int := 300

def POPULARITY_THRESHOLD : Int := 5

/-- `PREFETCH_THRESHOLD = 0.8`. -/
def PREFETCH_THRESHOLD : ℚ := 4 / 5

structure CacheEntry where
  CreatedAt : Int
  ExpiresAt : Int
  Response : List Nat
  LastAccess : Int
  popularity : Int
  originalTTL : Nat
deriving Repr, DecidableEq

def CacheEntry.IsPopular (e : CacheEntry) : Bool :=
  POPULARITY_THRESHOLD ≤ e.popularity

/-- `now.After(ExpiresAt) && now.Before(ExpiresAt + GRACE_PERIOD)`. -/
def CacheEntry.IsStale (e : CacheEntry) (now : Int) : Bool :=
  e.ExpiresAt < now && now < e.ExpiresAt + GRACE_PERIOD

/-- `now.After(ExpiresAt.Add(GRACE_PERIOD))`. -/
def CacheEntry.IsCompletelyExpired (e : CacheEntry) (now : Int) : Bool :=
  e.ExpiresAt + GRACE_PERIOD < now

/-- Popular entries whose age has reached `PREFETCH_THRESHOLD` of their
original TTL. -/
def CacheEntry.ShouldPrefetch (e : CacheEntry) (now : Int) : Bool :=
  if !e.IsPopular then false
  else PREFETCH_THRESHOLD * (e.originalTTL : ℚ) ≤ ((now - e.CreatedAt : Int) : ℚ)

/-- `TimeSinceLastAccess().Seconds() / (popularity + 1)`, the eviction
score. -/
def CacheEntry.score (e : CacheEntry) (now : Int) : ℚ :=
  ((now - e.LastAccess : Int) : ℚ) / ((e.popularity : ℚ) + 1)

/-- The Go map `map[string]*CacheEntry`, as an association list with
distinct keys; `entries` iteration order stands in for Go's (unspecified)
map iteration order. -/
structure DNSCache where
  entries : List (String × CacheEntry)
  maxSize : Nat
deriving Repr, DecidableEq

def NewDNSCache : DNSCache := ⟨[], CACHE_MAX_SIZE⟩

/-- Map lookup `c.entries[key]`. -/
def lookupEntry (l : List (String × CacheEntry)) (k : String) : Option CacheEntry :=
  (l.find? (fun p => p.1 = k)).map Prod.snd

/-- Map update `c.entries[key] = e` (a single binding per key). -/
def writeEntry (l : List (String × CacheEntry)) (k : String) (e : CacheEntry) :
    List (String × CacheEntry) :=
  (k, e) :: l.filter (fun p => p.1 ≠ k)

/-- Map deletion `delete(c.entries, key)`. -/
def deleteEntry (l : List (String × CacheEntry)) (k : String) :
    List (String × CacheEntry) :=
  l.filter (fun p => p.1 ≠ k)

/-- `DNSCache.Get`: look the key up; on a hit bump popularity and stamp
last-access, then delete and report a miss when the entry is completely
expired, and otherwise return the response with `needsRefresh` set when the
entry is stale or should be prefetched.  The final component is the cache
after the call's map and entry mutations. -/
def DNSCache.Get (c : DNSCache) (key : String) (now : Int) :
    Option (List Nat) × Bool × Bool × DNSCache :=
  match lookupEntry c.entries key with
  | none => (none, false, false, c)
  | some entry =>
    let entry := { entry with popularity := entry.popularity + 1, LastAccess := now }
    if entry.IsCompletelyExpired now then
      (none, false, false, { c with entries := deleteEntry c.entries key })
    else
      let needsRefresh := entry.IsStale now || entry.ShouldPrefetch now
      (some entry.Response, true, needsRefresh,
        { c with entries := writeEntry c.entries key entry })

/-- The loop body of `evictOne`: keep `(worstKey, worstScore)`, replacing it
whenever the current entry's score strictly exceeds the running worst. -/
def worstStep (now : Int) (acc : String × ℚ) (p : String × CacheEntry) :
    String × ℚ :=
  if acc.2 < p.2.score now then (p.1, p.2.score now) else acc

/-- `evictOne`: scan all entries for the one whose score strictly exceeds
the running worst (seeded with `("", -1)`), then delete that key — unless
the chosen key is the empty string, in which case nothing is deleted. -/
def evictOne (l : List (String × CacheEntry)) (now : Int) :
    List (String × CacheEntry) :=
  let worst := l.foldl (worstStep now) ("", -1)
  if worst.1 ≠ "" then deleteEntry l worst.1 else l

/-- `DNSCache.Set`: when the cache is at capacity and the key is new, evict
one entry first; then write a fresh entry with created-at and last-access
`now`, expires-at `now + ttl` and popularity 1, overwriting any previous
binding of the key. -/
def DNSCache.Set (c : DNSCache) (key : String) (response : List Nat)
    (ttl : Nat) (now : Int) : DNSCache :=
  let entries :=
    if c.maxSize ≤ c.entries.length ∧ lookupEntry c.entries key = none then
      evictOne c.entries now
    else c.entries
  let newEntry : CacheEntry :=
    { CreatedAt := now, ExpiresAt := now + ttl, Response := response,
      LastAccess := now, popularity := 1, originalTTL := ttl }
  { c with entries := writeEntry entries key newEntry }

/-- `DNSCache.Clean`: drop every completely expired entry. -/
def DNSCache.Clean (c : DNSCache) (now : Int) : DNSCache :=
  { c with entries := c.entries.filter (fun p => !p.2.IsCompletelyExpired now) }

/-- One recorded `Set` call: its key, response, ttl and the clock instant at
which it runs. -/
structure SetOp where
  key : String
  response : List Nat
  ttl : Nat
  now : Int
deriving Repr, DecidableEq

/-- Replay a sequence of `Set` calls against a cache. -/
def applyOps (c : DNSCache) (ops : List SetOp) : DNSCache :=
  ops.foldl (fun c op => c.Set op.key op.response op.ttl op.now) c

/-- The state invariant `Set` maintains for caches built by `Set` calls
under a monotone clock: distinct keys, no empty key, size within the
(positive) bound, and every entry's last-access at or before `now` with
popularity at least 1. -/
def cacheWF (c : DNSCache) (now : Int) : Prop :=
  (c.entries.map Prod.fst).Nodup ∧
  (∀ p ∈ c.entries, p.1 ≠ "") ∧
  c.entries.length ≤ c.maxSize ∧
  0 < c.maxSize ∧
  (∀ p ∈ c.entries, p.2.LastAccess ≤ now ∧ 1 ≤ p.2.popularity)

/-! ## Upstream resolver (`internal/server/resolver.go`)

Only the sequential skeleton of `Resolve` is embedded: the opening
`select` on the already-done context, and — through an oracle for the
nondeterministic race — which of the three `select` branches fires
afterwards.  `attemptsLaunched` counts the `resolveUpstream` goroutines the
call starts. -/

inductive ResolveErr where
  | ctxErr
  | allUpstreamsFailed
deriving Repr, DecidableEq

/-- Outcome of the race `select`: a first response arrives, the parent
context ends first, or the overall timeout fires. -/
inductive RaceOutcome where
  | response (r : List Nat)
  | cancelled
  | timedOut
deriving Repr, DecidableEq

structure ResolveResult where
  response : Option (List Nat)
  err : Option ResolveErr
  attemptsLaunched : Nat
deriving Repr, DecidableEq

/-- `UpstreamResolver.Resolve`: return `ctx.Err()` at once when the context
is already done (before launching anything); otherwise launch one attempt
per upstream address and finish according to the race outcome. -/
def Resolve (upstreamAddrs : List String) (ctxDone : Bool)
    (race : RaceOutcome) : ResolveResult :=
  if ctxDone then ⟨none, some .ctxErr, 0⟩
  else
    match race with
    | .response r => ⟨some r, none, upstreamAddrs.length⟩
    | .cancelled => ⟨none, some .ctxErr, upstreamAddrs.length⟩
    | .timedOut => ⟨none, some .allUpstreamsFailed, upstreamAddrs.length⟩

/-! ## Concrete inputs used by the claims -/

/-- The test helper `buildDNSQuery("example.com", 1, 1)`: transaction id
`0x1234`, one question, labels `example` and `com`, qtype 1, qclass 1. -/
def exampleQuery : List Nat :=
  [0x12, 0x34, 0, 0, 0, 1, 0, 0, 0, 0, 0, 0,
   7, 101, 120, 97, 109, 112, 108, 101, 3, 99, 111, 109, 0,
   0, 1, 0, 1]

/-- The test helper `buildDNSResponseMultiple("example.com", {3600, 300, 1800})`:
one question and three A answers whose TTLs are 3600, 300 and 1800. -/
def multiTTLResponse : List Nat :=
  [0x12, 0x34, 0x81, 0x80, 0, 1, 0, 3, 0, 0, 0, 0,
   7, 101, 120, 97, 109, 112, 108, 101, 3, 99, 111, 109, 0,
   0, 1, 0, 1,
   0xC0, 0x0C, 0, 1, 0, 1, 0, 0, 14, 16, 0, 4, 192, 168, 1, 1,
   0xC0, 0x0C, 0, 1, 0, 1, 0, 0, 1, 44, 0, 4, 192, 168, 1, 2,
   0xC0, 0x0C, 0, 1, 0, 1, 0, 0, 7, 8, 0, 4, 192, 168, 1, 3]

/-- An all-zero 12-byte buffer: a minimal well-formed header. -/
def zeroQuery12 : List Nat := List.replicate 12 0

/-- A cache entry created at instant 0 with TTL 0 (so fully expired once
`now > 300`). -/
def entryW : CacheEntry :=
  { CreatedAt := 0, ExpiresAt := 0, Response := [1], LastAccess := 0,
    popularity := 1, originalTTL := 0 }

/-- A cache holding `entryW` under key `"k"`. -/
def cacheW : DNSCache := ⟨[("k", entryW)], 1024⟩

/-- A cache at its capacity bound with an ordinary (nonempty) key. -/
def cacheFullK : DNSCache := ⟨[("k", entryW)], 1⟩

/-- The string of `n` copies of `'a'` — 1025 distinct cache keys, one of
which (`repChar 0`) is the empty string. -/
def repChar (n : Nat) : String := String.mk (List.replicate n 'a')

/-- The entry a `Set` call writes: created/last-accessed `now`, expiry
`now + ttl`, popularity 1. -/
def freshEntry (response : List Nat) (ttl : Nat) (now : Int) : CacheEntry :=
  ⟨now, now + ttl, response, now, 1, ttl⟩

/-- 1023 `Set` calls with fresh distinct keys at instant 1. -/
def fillOps : List SetOp :=
  (List.range 1023).map (fun i => ⟨repChar (i + 1), [], 60, 1⟩)

/-- A `Set` of the empty-string key at instant 0, the 1023 fillers at
instant 1 (reaching the 1024-entry capacity), then one more fresh key at
instant 2 — the call that must evict but cannot, because the oldest entry's
key is the `worstKey` sentinel `""`. -/
def overflowOps : List SetOp :=
  ⟨repChar 0, [], 60, 0⟩ :: (fillOps ++ [⟨"x", [], 60, 2⟩])

/-- The cache contents after the first `n + 1` of `overflowOps`. -/
def stateList (n : Nat) : List (String × CacheEntry) :=
  ((List.range n).reverse.map (fun i => (repChar (i + 1), freshEntry [] 60 1)))
    ++ [(repChar 0, freshEntry [] 60 0)]

/-! ## Theorems for the claims -/

theorem lookupEntry_writeEntry (l : List (String × CacheEntry)) (k : String)
    (e : CacheEntry) : lookupEntry (writeEntry l k e) k = some e := by
  simp [lookupEntry, writeEntry, List.find?]

theorem lookupEntry_deleteEntry (l : List (String × CacheEntry)) (k : String) :
    lookupEntry (deleteEntry l k) k = none := by
  have hnone : (deleteEntry l k).find? (fun p => p.1 = k) = none := by
    rw [List.find?_eq_none]
    intro p hp
    simp [deleteEntry, List.mem_filter] at hp
    simp [hp.2]
  simp [lookupEntry, hnone]

/-- C10: for every query buffer shorter than 12 bytes, both
`CreateBlockedResponse` and `CreateNullResponse` return the input buffer
unchanged — no flags are overwritten and no synthetic answer is appended. -/
theorem claim_C10_short_query_unchanged (q : List Nat) (h : q.length < 12) :
    CreateBlockedResponse q = q ∧ CreateNullResponse q = q := by
  constructor <;> simp [CreateBlockedResponse, CreateNullResponse, h]

theorem claim_C10_witness :
    ([0, 1, 2] : List Nat).length < 12 ∧
      (CreateBlockedResponse [0, 1, 2] = [0, 1, 2] ∧
        CreateNullResponse [0, 1, 2] = [0, 1, 2]) :=
  ⟨by decide, claim_C10_short_query_unchanged [0, 1, 2] (by decide)⟩

/-- C2, evaluated at the 12-byte all-zero query: the response is 16 bytes
longer than the query, flags are `0x8180`, the answer count is 1, and the
appended answer is pointer `C0 0C`, type 1, class 1, rdlength 4 and rdata
`0.0.0.0` — but the four TTL bytes are `00 3C 00 00`, so the 32-bit TTL
field holds `3932160`, not the `60` the claim (and the source's own
`TTL: 60 seconds` comment) state: the source writes the four-byte field
with `PutUint16`. -/
theorem claim_C2_null_response_ttl_bug :
    (CreateNullResponse zeroQuery12).length = zeroQuery12.length + 16 ∧
    be16 (CreateNullResponse zeroQuery12) 2 = 0x8180 ∧
    be16 (CreateNullResponse zeroQuery12) 6 = 1 ∧
    (CreateNullResponse zeroQuery12).drop 12 =
      [0xC0, 0x0C, 0, 1, 0, 1, 0, 60, 0, 0, 0, 4, 0, 0, 0, 0] ∧
    be32 (CreateNullResponse zeroQuery12) 18 = 3932160 ∧
    ¬ be32 (CreateNullResponse zeroQuery12) 18 = 60 := by
  decide

/-- C8: `Resolve` with a context that is already done returns the context's
error and a nil response at once, launching no upstream attempts, whatever
the upstream list and however the race would have gone. -/
theorem claim_C8_resolve_cancelled_ctx (upstreamAddrs : List String)
    (race : RaceOutcome) :
    Resolve upstreamAddrs true race =
      { response := none, err := some ResolveErr.ctxErr, attemptsLaunched := 0 } := by
  simp [Resolve]

/-- C6: `ExtractTTL` returns 300 on every buffer under 12 bytes, 3600 on
every buffer of at least 12 bytes whose answer count (header offset 6) is
zero, and 300 — the minimum — on the response whose three answers carry
TTLs 3600, 300 and 1800. -/
theorem claim_C6_extract_ttl :
    (∀ r : List Nat, r.length < 12 → ExtractTTL r = 300) ∧
    (∀ r : List Nat, 12 ≤ r.length → be16 r 6 = 0 → ExtractTTL r = 3600) ∧
    ExtractTTL multiTTLResponse = 300 := by
  refine ⟨?_, ?_, by decide⟩
  · intro r h
    simp [ExtractTTL, h]
  · intro r h h0
    rw [ExtractTTL, if_neg (by omega)]
    show answerLoop r (be16 r 6) _ 3600 = 3600
    rw [h0]
    rfl

theorem dotSuffixes_of_stripLabel_none {d : List Char} (h : stripLabel d = none) :
    dotSuffixes d = [] := by
  induction d with
  | nil => simp [dotSuffixes]
  | cons c rest ih =>
    by_cases hc : c = '.'
    · exfalso
      subst hc
      simp [stripLabel, List.dropWhile] at h
    · have h' : stripLabel rest = none := by
        simpa [stripLabel, List.dropWhile, hc] using h
      simp [dotSuffixes, hc, ih h']

theorem dotSuffixes_of_stripLabel_some {d rest : List Char}
    (h : stripLabel d = some rest) :
    dotSuffixes d = rest :: dotSuffixes rest := by
  induction d with
  | nil => simp [stripLabel, List.dropWhile] at h
  | cons c d' ih =>
    by_cases hc : c = '.'
    · subst hc
      simp [stripLabel, List.dropWhile] at h
      subst h
      simp [dotSuffixes]
    · have h' : stripLabel d' = some rest := by
        simpa [stripLabel, List.dropWhile, hc] using h
      simp [dotSuffixes, hc, ih h']

theorem blockedLoop_eq_any (f : FilterSet) :
    ∀ (fuel : Nat) (d : List Char), d.length < fuel →
      blockedLoop f fuel d = (domainParents d).any (fun p => f.contains p) := by
  intro fuel
  induction fuel with
  | zero => intro d h; omega
  | succ fuel ih =>
    intro d h
    rw [blockedLoop]
    by_cases hmem : d ∈ f
    · simp [domainParents, hmem]
    · rw [if_neg (by simpa using hmem)]
      cases hstrip : stripLabel d with
      | none =>
        simp [domainParents, dotSuffixes_of_stripLabel_none hstrip, hmem]
      | some rest =>
        have hlen := stripLabel_length hstrip
        simp only [hstrip]
        rw [ih rest (by omega)]
        simp [domainParents, dotSuffixes_of_stripLabel_some hstrip, hmem]

/-- C1: `IsBlocked` normalizes the query domain (lower-case after trimming
whitespace and one trailing dot) and returns true exactly when the
normalized domain or one of its parents (obtained by repeatedly stripping
the leftmost label through the first dot) is in the set; in particular
`"ads.googleads.com"` is blocked when only `"googleads.com"` was added,
and a domain none of whose suffixes is in the list yields false. -/
theorem claim_C1_isblocked_suffix_match :
    (∀ (f : FilterSet) (domain : List Char),
      FilterList.IsBlocked f domain =
        (domainParents (toLowerStr (trimSpace (trimDot domain)))).any
          (fun p => f.contains p)) ∧
    FilterList.IsBlocked (FilterList.Add [] ("googleads.com".toList))
      ("ads.googleads.com".toList) = true ∧
    (∀ (f : FilterSet) (domain : List Char),
      (∀ p ∈ domainParents (toLowerStr (trimSpace (trimDot domain))),
        f.contains p = false) →
      FilterList.IsBlocked f domain = false) := by
  have hmain : ∀ (f : FilterSet) (domain : List Char),
      FilterList.IsBlocked f domain =
        (domainParents (toLowerStr (trimSpace (trimDot domain)))).any
          (fun p => f.contains p) := by
    intro f domain
    exact blockedLoop_eq_any f _ _ (by omega)
  refine ⟨hmain, by decide, ?_⟩
  intro f domain hnone
  rw [hmain]
  simp only [List.any_eq_false]
  intro p hp
  have := hnone p hp
  simpa using this

theorem claim_C1_witness :
    FilterList.IsBlocked [("googleads.com".toList)] ("ads.example.org".toList) =
      false :=
  claim_C1_isblocked_suffix_match.2.2 [("googleads.com".toList)]
    ("ads.example.org".toList) (by decide)

/-- C3: `Set(key, response, ttl)` writes an entry with created-at and
last-access `now`, expires-at `now + ttl` and popularity 1, overwriting any
previous binding, and an immediate `Get(key)` returns exactly
`(response, true, false)`. -/
theorem claim_C3_set_then_get (c : DNSCache) (key : String) (response : List Nat)
    (ttl : Nat) (now : Int) (h : 0 < ttl) :
    lookupEntry (c.Set key response ttl now).entries key =
      some { CreatedAt := now, ExpiresAt := now + ttl, Response := response,
             LastAccess := now, popularity := 1, originalTTL := ttl } ∧
    ((c.Set key response ttl now).Get key now).1 = some response ∧
    ((c.Set key response ttl now).Get key now).2.1 = true ∧
    ((c.Set key response ttl now).Get key now).2.2.1 = false := by
  have hset : lookupEntry (c.Set key response ttl now).entries key =
      some { CreatedAt := now, ExpiresAt := now + ttl, Response := response,
             LastAccess := now, popularity := 1, originalTTL := ttl } := by
    simp only [DNSCache.Set]
    exact lookupEntry_writeEntry _ _ _
  have h1 : ¬ (now + (ttl : Int) + GRACE_PERIOD < now) := by
    simp [GRACE_PERIOD]; omega
  have h2 : ¬ (now + (ttl : Int) < now) := by omega
  refine ⟨hset, ?_⟩
  simp [DNSCache.Get, hset, CacheEntry.IsCompletelyExpired, CacheEntry.IsStale,
    CacheEntry.ShouldPrefetch, CacheEntry.IsPopular, POPULARITY_THRESHOLD, h1, h2]

theorem claim_C3_witness :
    lookupEntry ((NewDNSCache.Set "example.com:1" [1, 2, 3] 60 0)).entries
        "example.com:1" =
      some { CreatedAt := 0, ExpiresAt := 60, Response := [1, 2, 3],
             LastAccess := 0, popularity := 1, originalTTL := 60 } ∧
    ((NewDNSCache.Set "example.com:1" [1, 2, 3] 60 0).Get "example.com:1" 0).1 =
      some [1, 2, 3] ∧
    ((NewDNSCache.Set "example.com:1" [1, 2, 3] 60 0).Get "example.com:1" 0).2.1 =
      true ∧
    ((NewDNSCache.Set "example.com:1" [1, 2, 3] 60 0).Get "example.com:1" 0).2.2.1 =
      false := by
  simpa using
    claim_C3_set_then_get NewDNSCache "example.com:1" [1, 2, 3] 60 0 (by decide)

/-- C5: once `now` is past expires-at plus the grace period, `Get` deletes
the entry and returns `(nil, false, false)`, the key is absent from the map
afterwards, and `Clean` removes exactly the fully expired entries. -/
theorem claim_C5_expired_get_clean (c : DNSCache) (key : String) (e : CacheEntry)
    (now : Int) (hfind : lookupEntry c.entries key = some e)
    (hexp : e.ExpiresAt + GRACE_PERIOD < now) :
    c.Get key now =
      (none, false, false, { c with entries := deleteEntry c.entries key }) ∧
    lookupEntry ((c.Get key now).2.2.2).entries key = none ∧
    (∀ p ∈ (c.Clean now).entries, p.2.IsCompletelyExpired now = false) ∧
    (∀ p ∈ c.entries, p.2.IsCompletelyExpired now = false →
      p ∈ (c.Clean now).entries) := by
  have hget : c.Get key now =
      (none, false, false, { c with entries := deleteEntry c.entries key }) := by
    simp [DNSCache.Get, hfind, CacheEntry.IsCompletelyExpired, hexp]
  refine ⟨hget, ?_, ?_, ?_⟩
  · rw [hget]
    exact lookupEntry_deleteEntry _ _
  · intro p hp
    simp [DNSCache.Clean, List.mem_filter] at hp
    simpa using hp.2
  · intro p hp hlive
    simp [DNSCache.Clean, List.mem_filter]
    exact ⟨hp, by simp [hlive]⟩

theorem claim_C5_witness :
    cacheW.Get "k" 301 =
      (none, false, false, { cacheW with entries := deleteEntry cacheW.entries "k" }) ∧
    lookupEntry ((cacheW.Get "k" 301).2.2.2).entries "k" = none :=
  ⟨(claim_C5_expired_get_clean cacheW "k" entryW 301 (by decide) (by decide)).1,
   (claim_C5_expired_get_clean cacheW "k" entryW 301 (by decide) (by decide)).2.1⟩

theorem claim_C6_witness :
    ExtractTTL (List.replicate 10 0) = 300 ∧
      ExtractTTL (List.replicate 12 0) = 3600 :=
  ⟨claim_C6_extract_ttl.1 (List.replicate 10 0) (by decide),
   claim_C6_extract_ttl.2.1 (List.replicate 12 0) (by decide) (by decide)⟩

theorem parseLoop_snd_eq_specScan (q : List Nat) :
    ∀ (fuel position : Nat) (acc : String),
      (parseLoop q fuel position acc).map Prod.snd = specScan q fuel position := by
  intro fuel
  induction fuel with
  | zero => intro position acc; rfl
  | succ fuel ih =>
    intro position acc
    rw [parseLoop, specScan]
    by_cases hpos : position < q.length
    · rw [if_pos hpos, if_pos hpos]
      by_cases h0 : q.getD position 0 = 0
      · rw [if_pos h0, if_pos h0]
        rfl
      · rw [if_neg h0, if_neg h0]
        by_cases hptr : 192 ≤ q.getD position 0
        · rw [if_pos hptr, if_pos hptr]
          exact ih _ _
        · rw [if_neg hptr, if_neg hptr]
          by_cases hover : q.length < position + 1 + q.getD position 0
          · rw [if_pos hover, if_pos hover]
            rfl
          · rw [if_neg hover, if_neg hover]
            exact ih _ _
    · rw [if_neg hpos, if_neg hpos]
      rfl

/-- C7: `ParseQuery` fails exactly when the buffer is under 12 bytes, when
a label length extends past the buffer end (the name walk `specScan` fails),
or when fewer than 4 bytes remain after the name for qtype/qclass; it
decodes the well-formed `example.com` type-1 class-1 query to domain
`"example.com"` with cache key `"example.com:1"`, and it rejects every
10-byte buffer. -/
theorem claim_C7_parse_query_errors :
    (∀ q : List Nat,
      (ParseQuery q = none ↔
        (q.length < 12 ∨ specScan q (q.length + 1) 12 = none ∨
          ∃ e, specScan q (q.length + 1) 12 = some e ∧ q.length < e + 4))) ∧
    ParseQuery exampleQuery =
      some { Domain := "example.com", CacheKey := "example.com:1",
             QType := 1, QClass := 1 } ∧
    (∀ q : List Nat, q.length = 10 → ParseQuery q = none) := by
  refine ⟨?_, by decide, ?_⟩
  · intro q
    by_cases hlen : q.length < 12
    · simp [ParseQuery, hlen]
    · rw [ParseQuery, if_neg hlen]
      have hspec := parseLoop_snd_eq_specScan q (q.length + 1) 12 ""
      cases hparse : parseLoop q (q.length + 1) 12 "" with
      | none =>
        rw [hparse] at hspec
        simp [hlen, ← hspec]
      | some pr =>
        rw [hparse] at hspec
        obtain ⟨dom, pos⟩ := pr
        by_cases hrem : q.length < pos + 4
        · simp [hlen, ← hspec, hrem]
        · simp [hlen, ← hspec, hrem]
  · intro q h
    simp [ParseQuery, h]


theorem claim_C7_witness : ParseQuery (List.replicate 10 0) = none :=
  claim_C7_parse_query_errors.2.2 (List.replicate 10 0) (by decide)

theorem processLine_skipped (st : LoadState) (rawLine : List Char)
    (h : skippedLine rawLine = true) : processLine st rawLine = st := by
  unfold processLine
  unfold skippedLine at h
  simp only at h ⊢
  rw [if_pos h]

theorem processLine_added (st : LoadState) (rawLine : List Char) (d : List Char)
    (hskip : skippedLine rawLine = false)
    (hcap : regexCapture (trimSpace rawLine) = some d) :
    processLine st rawLine = ⟨FilterList.Add st.f d, st.count + 1⟩ := by
  unfold processLine
  unfold skippedLine at hskip
  simp only at hskip ⊢
  rw [if_neg (by simp [hskip]), hcap]

theorem processLine_unmatched (st : LoadState) (rawLine : List Char)
    (hskip : skippedLine rawLine = false)
    (hcap : regexCapture (trimSpace rawLine) = none) :
    processLine st rawLine = st := by
  unfold processLine
  unfold skippedLine at hskip
  simp only at hskip ⊢
  rw [if_neg (by simp [hskip]), hcap]

theorem processLine_count (st : LoadState) (rawLine : List Char) :
    (processLine st rawLine).count =
      st.count + (if addedLine rawLine then 1 else 0) := by
  by_cases hskip : skippedLine rawLine
  · rw [processLine_skipped st rawLine hskip]
    simp [addedLine, hskip]
  · rw [Bool.not_eq_true] at hskip
    cases hcap : regexCapture (trimSpace rawLine) with
    | none =>
      rw [processLine_unmatched st rawLine hskip hcap]
      simp [addedLine, hskip, hcap]
    | some d =>
      rw [processLine_added st rawLine d hskip hcap]
      simp [addedLine, hskip, hcap]

theorem foldl_processLine_count (lines : List (List Char)) :
    ∀ st : LoadState,
      (lines.foldl processLine st).count = st.count + lines.countP addedLine := by
  induction lines with
  | nil => intro st; simp
  | cons l rest ih =>
    intro st
    rw [List.foldl_cons, ih, processLine_count]
    rw [List.countP_cons]
    by_cases h : addedLine l
    · simp [h]
      omega
    · simp [h]

/-- C9: `LoadFromFile` processes line by line — a trimmed-blank line or one
starting with `!`, `[` or `@@` leaves the state unchanged; a remaining line
matching `||<domain>^` adds the captured domain and bumps the count; any
other line is silently ignored — the returned count is exactly the number
of matching lines, and the returned error is the scanner's I/O error,
independent of the lines' contents. -/
theorem claim_C9_load_from_file :
    (∀ (f : FilterSet) (lines : List (List Char)) (scanErr : Option String),
      (FilterList.LoadFromFile f lines scanErr).2.2 = scanErr) ∧
    (∀ (f : FilterSet) (lines : List (List Char)) (scanErr : Option String),
      (FilterList.LoadFromFile f lines scanErr).2.1 = lines.countP addedLine) ∧
    (∀ (st : LoadState) (rawLine : List Char),
      skippedLine rawLine = true → processLine st rawLine = st) ∧
    (∀ (st : LoadState) (rawLine : List Char) (d : List Char),
      skippedLine rawLine = false → regexCapture (trimSpace rawLine) = some d →
      processLine st rawLine = ⟨FilterList.Add st.f d, st.count + 1⟩) ∧
    (∀ (st : LoadState) (rawLine : List Char),
      skippedLine rawLine = false → regexCapture (trimSpace rawLine) = none →
      processLine st rawLine = st) := by
  refine ⟨?_, ?_, processLine_skipped, processLine_added, processLine_unmatched⟩
  · intro f lines scanErr
    rfl
  · intro f lines scanErr
    simpa [FilterList.LoadFromFile] using foldl_processLine_count lines ⟨f, 0⟩

theorem claim_C9_witness :
    processLine ⟨[], 0⟩ ("! comment".toList) = ⟨[], 0⟩ ∧
    processLine ⟨[], 0⟩ ("||ads.com^".toList) =
      ⟨FilterList.Add [] ("ads.com".toList), 1⟩ ∧
    processLine ⟨[], 0⟩ ("plainline".toList) = ⟨[], 0⟩ :=
  ⟨claim_C9_load_from_file.2.2.1 ⟨[], 0⟩ ("! comment".toList) (by decide),
   claim_C9_load_from_file.2.2.2.1 ⟨[], 0⟩ ("||ads.com^".toList)
     ("ads.com".toList) (by decide) (by decide),
   claim_C9_load_from_file.2.2.2.2 ⟨[], 0⟩ ("plainline".toList)
     (by decide) (by decide)⟩

theorem lookupEntry_eq_none_iff (l : List (String × CacheEntry)) (k : String) :
    lookupEntry l k = none ↔ ∀ p ∈ l, p.1 ≠ k := by
  simp [lookupEntry, List.find?_eq_none]

theorem mem_map_fst_of_lookupEntry_some {l : List (String × CacheEntry)}
    {k : String} {e : CacheEntry} (h : lookupEntry l k = some e) :
    k ∈ l.map Prod.fst := by
  simp only [lookupEntry] at h
  cases hfind : l.find? (fun p => p.1 = k) with
  | none => rw [hfind] at h; simp at h
  | some p =>
    have hmem := List.mem_of_find?_eq_some hfind
    have hkey : p.1 = k := by
      have := List.find?_some hfind
      simpa using this
    exact hkey ▸ List.mem_map_of_mem Prod.fst hmem

theorem deleteEntry_eq_self {l : List (String × CacheEntry)} {k : String}
    (h : lookupEntry l k = none) : deleteEntry l k = l := by
  rw [lookupEntry_eq_none_iff] at h
  rw [deleteEntry, List.filter_eq_self]
  intro p hp
  simpa using h p hp

theorem length_deleteEntry_of_mem {l : List (String × CacheEntry)} {k : String}
    (hnodup : (l.map Prod.fst).Nodup) (hmem : k ∈ l.map Prod.fst) :
    (deleteEntry l k).length + 1 = l.length := by
  induction l with
  | nil => simp at hmem
  | cons p rest ih =>
    simp only [List.map_cons, List.nodup_cons] at hnodup
    by_cases hk : p.1 = k
    · have hrest : deleteEntry rest k = rest := by
        apply deleteEntry_eq_self
        rw [lookupEntry_eq_none_iff]
        intro q hq hqk
        apply hnodup.1
        have hq1 : q.1 ∈ rest.map Prod.fst := List.mem_map_of_mem Prod.fst hq
        rwa [hqk, ← hk] at hq1
      have hrest' : rest.filter (fun p => p.1 ≠ k) = rest := by
        simpa [deleteEntry] using hrest
      simp [deleteEntry, List.filter_cons, hk, hrest']
      intro a b hab hak
      apply hnodup.1
      have ha : a ∈ rest.map Prod.fst := List.mem_map_of_mem Prod.fst hab
      rwa [hak, ← hk] at ha
    · rw [List.map_cons, List.mem_cons] at hmem
      have hmem' : k ∈ rest.map Prod.fst := by
        rcases hmem with h1 | h1
        · exact absurd h1.symm hk
        · exact h1
      have hlen := ih hnodup.2 hmem'
      have hstep : deleteEntry (p :: rest) k = p :: deleteEntry rest k := by
        simp [deleteEntry, List.filter_cons, hk]
      rw [hstep]
      simp only [List.length_cons]
      omega

theorem deleteEntry_sublist (l : List (String × CacheEntry)) (k : String) :
    (deleteEntry l k).Sublist l :=
  List.filter_sublist l

theorem writeEntry_length (l : List (String × CacheEntry)) (k : String)
    (e : CacheEntry) : (writeEntry l k e).length = (deleteEntry l k).length + 1 := by
  simp [writeEntry, deleteEntry]

theorem writeEntry_nodup {l : List (String × CacheEntry)} (k : String)
    (e : CacheEntry) (hnodup : (l.map Prod.fst).Nodup) :
    ((writeEntry l k e).map Prod.fst).Nodup := by
  simp only [writeEntry, List.map_cons, List.nodup_cons]
  constructor
  · intro hk
    simp only [List.mem_map] at hk
    obtain ⟨p, hp, hpk⟩ := hk
    rw [List.mem_filter] at hp
    simp [hpk] at hp
  · exact ((deleteEntry_sublist l k).map Prod.fst).nodup hnodup

theorem writeEntry_mem {l : List (String × CacheEntry)} {k : String}
    {e : CacheEntry} {p : String × CacheEntry} (hp : p ∈ writeEntry l k e) :
    p = (k, e) ∨ p ∈ l := by
  rcases List.mem_cons.mp hp with h | h
  · exact Or.inl h
  · exact Or.inr ((deleteEntry_sublist l k).mem h)

theorem foldl_worstStep_spec (now : Int) :
    ∀ (l : List (String × CacheEntry)) (acc : String × ℚ),
      (l.foldl (worstStep now) acc = acc ∨
        ∃ e, ((l.foldl (worstStep now) acc).1, e) ∈ l ∧
          e.score now = (l.foldl (worstStep now) acc).2) ∧
      acc.2 ≤ (l.foldl (worstStep now) acc).2 ∧
      ∀ p ∈ l, p.2.score now ≤ (l.foldl (worstStep now) acc).2 := by
  intro l
  induction l with
  | nil => intro acc; simp
  | cons q rest ih =>
    intro acc
    rw [List.foldl_cons]
    obtain ⟨hcase, hmono, hub⟩ := ih (worstStep now acc q)
    have hstep_le : acc.2 ≤ (worstStep now acc q).2 := by
      rw [worstStep]
      split
      · next h => exact le_of_lt h
      · exact le_refl _
    have hq_le : q.2.score now ≤ (worstStep now acc q).2 := by
      rw [worstStep]
      split
      · exact le_refl _
      · next h => exact le_of_not_lt h
    refine ⟨?_, le_trans hstep_le hmono, ?_⟩
    · rcases hcase with hcase | hcase
      · rw [hcase]
        rw [worstStep]
        split
        · exact Or.inr ⟨q.2, by simp, rfl⟩
        · exact Or.inl rfl
      · obtain ⟨e, hmem, hsc⟩ := hcase
        exact Or.inr ⟨e, List.mem_cons_of_mem q hmem, hsc⟩
    · intro p hp
      rcases List.mem_cons.mp hp with hp | hp
      · rw [hp]
        exact le_trans hq_le hmono
      · exact hub p hp

theorem score_nonneg {e : CacheEntry} {now : Int} (hla : e.LastAccess ≤ now)
    (hpop : 1 ≤ e.popularity) : 0 ≤ e.score now := by
  rw [CacheEntry.score]
  apply div_nonneg
  · simp
    omega
  · have : (1 : ℚ) ≤ (e.popularity : ℚ) := by exact_mod_cast hpop
    linarith

theorem evictOne_removes_worst (l : List (String × CacheEntry)) (now : Int)
    (hne : l ≠ [])
    (hkeys : ∀ p ∈ l, p.1 ≠ "")
    (hbounds : ∀ p ∈ l, p.2.LastAccess ≤ now ∧ 1 ≤ p.2.popularity) :
    ∃ kev eev, (kev, eev) ∈ l ∧
      (∀ p ∈ l, p.2.score now ≤ eev.score now) ∧
      evictOne l now = deleteEntry l kev := by
  obtain ⟨hcase, hmono, hub⟩ := foldl_worstStep_spec now l ("", -1)
  rcases hcase with hcase | hcase
  · exfalso
    obtain ⟨p, hp⟩ := List.exists_mem_of_ne_nil l hne
    have h0 : (0 : ℚ) ≤ p.2.score now :=
      score_nonneg (hbounds p hp).1 (hbounds p hp).2
    have hle := hub p hp
    rw [hcase] at hle
    simp at hle
    linarith
  · obtain ⟨e, hmem, hsc⟩ := hcase
    refine ⟨(l.foldl (worstStep now) ("", -1)).1, e, hmem, ?_, ?_⟩
    · intro p hp
      rw [hsc]
      exact hub p hp
    · rw [evictOne]
      rw [if_pos (hkeys _ hmem)]

theorem set_preserves_wf (c : DNSCache) (key : String) (response : List Nat)
    (ttl : Nat) (t now : Int) (hwf : cacheWF c t) (hle : t ≤ now)
    (hkey : key ≠ "") : cacheWF (c.Set key response ttl now) now := by
  obtain ⟨hnodup, hkeys, hsize, hposmax, hbounds⟩ := hwf
  have hmain : ∀ B : List (String × CacheEntry), B.Sublist c.entries →
      (writeEntry B key ⟨now, now + ttl, response, now, 1, ttl⟩).length ≤ c.maxSize →
      cacheWF ⟨writeEntry B key ⟨now, now + ttl, response, now, 1, ttl⟩, c.maxSize⟩ now := by
    intro B hsub hlen
    have hBnodup : (B.map Prod.fst).Nodup := (hsub.map Prod.fst).nodup hnodup
    refine ⟨writeEntry_nodup key _ hBnodup, ?_, hlen, hposmax, ?_⟩
    · intro p hp
      rcases writeEntry_mem hp with h | h
      · rw [h]
        exact hkey
      · exact hkeys p (hsub.mem h)
    · intro p hp
      rcases writeEntry_mem hp with h | h
      · rw [h]
        exact ⟨le_refl now, by norm_num⟩
      · have hb := hbounds p (hsub.mem h)
        exact ⟨le_trans hb.1 hle, hb.2⟩
  by_cases hcap : c.maxSize ≤ c.entries.length ∧ lookupEntry c.entries key = none
  · have hne : c.entries ≠ [] := by
      intro h0
      rw [h0] at hcap
      simp at hcap
      omega
    have hbounds' : ∀ p ∈ c.entries, p.2.LastAccess ≤ now ∧ 1 ≤ p.2.popularity := by
      intro p hp
      have hb := hbounds p hp
      exact ⟨le_trans hb.1 hle, hb.2⟩
    obtain ⟨kev, eev, hmem, hworst, hevict⟩ :=
      evictOne_removes_worst c.entries now hne hkeys hbounds'
    have hSet : c.Set key response ttl now =
        ⟨writeEntry (evictOne c.entries now) key
          ⟨now, now + ttl, response, now, 1, ttl⟩, c.maxSize⟩ := by
      rw [DNSCache.Set]
      rw [if_pos hcap]
    rw [hSet, hevict]
    apply hmain _ (deleteEntry_sublist _ _)
    rw [writeEntry_length]
    have hkevmem : kev ∈ c.entries.map Prod.fst :=
      List.mem_map_of_mem Prod.fst hmem
    have hlen1 : (deleteEntry c.entries kev).length + 1 = c.entries.length :=
      length_deleteEntry_of_mem hnodup hkevmem
    have hkeyB : lookupEntry (deleteEntry c.entries kev) key = none := by
      rw [lookupEntry_eq_none_iff]
      intro p hp
      exact (lookupEntry_eq_none_iff _ _).mp hcap.2 p ((deleteEntry_sublist _ _).mem hp)
    rw [deleteEntry_eq_self hkeyB]
    omega
  · have hSet : c.Set key response ttl now =
        ⟨writeEntry c.entries key ⟨now, now + ttl, response, now, 1, ttl⟩,
          c.maxSize⟩ := by
      rw [DNSCache.Set]
      rw [if_neg hcap]
    rw [hSet]
    apply hmain _ (List.Sublist.refl _)
    rw [writeEntry_length]
    cases hlook : lookupEntry c.entries key with
    | some e =>
      have hkmem : key ∈ c.entries.map Prod.fst :=
        mem_map_fst_of_lookupEntry_some hlook
      have hlen1 := length_deleteEntry_of_mem hnodup hkmem
      omega
    | none =>
      have hlt : c.entries.length < c.maxSize := by
        by_contra hge
        exact hcap ⟨by omega, hlook⟩
      rw [deleteEntry_eq_self hlook]
      omega

theorem applyOps_wf :
    ∀ (ops : List SetOp) (c : DNSCache) (t : Int), cacheWF c t →
      (∀ op ∈ ops, op.key ≠ "") →
      List.Chain (fun a b => a ≤ b) t (ops.map SetOp.now) →
      ∃ t', cacheWF (applyOps c ops) t' := by
  intro ops
  induction ops with
  | nil =>
    intro c t hwf _ _
    exact ⟨t, hwf⟩
  | cons op rest ih =>
    intro c t hwf hkeys hchain
    rw [List.map_cons, List.chain_cons] at hchain
    have hwf' := set_preserves_wf c op.key op.response op.ttl t op.now hwf
      hchain.1 (hkeys op (by simp))
    have hfold : applyOps c (op :: rest) =
        applyOps (c.Set op.key op.response op.ttl op.now) rest := by
      simp [applyOps]
    rw [hfold]
    exact ih _ op.now hwf' (fun o ho => hkeys o (List.mem_cons_of_mem _ ho))
      hchain.2

/-- C4, amended for the two conditions the code actually needs: provided no
`Set` uses the empty-string key (the sentinel `evictOne` refuses to delete)
and the call instants are non-decreasing, any sequence of `Set` calls from a
fresh cache keeps at most `CACHE_MAX_SIZE` entries with one entry per key;
and a `Set` with a new key at capacity first evicts exactly one entry whose
eviction score is maximal, then admits the new key, leaving the size
unchanged. -/
theorem claim_C4_amended_bounded_eviction :
    (∀ (ops : List SetOp) (t0 : Int), (∀ op ∈ ops, op.key ≠ "") →
      List.Chain (fun a b => a ≤ b) t0 (ops.map SetOp.now) →
      (applyOps NewDNSCache ops).entries.length ≤ CACHE_MAX_SIZE ∧
      ((applyOps NewDNSCache ops).entries.map Prod.fst).Nodup) ∧
    (∀ (c : DNSCache) (key : String) (response : List Nat) (ttl : Nat)
      (now : Int),
      cacheWF c now → key ≠ "" → lookupEntry c.entries key = none →
      c.maxSize ≤ c.entries.length →
      ∃ kev eev, (kev, eev) ∈ c.entries ∧
        (∀ p ∈ c.entries, p.2.score now ≤ eev.score now) ∧
        (c.Set key response ttl now).entries =
          writeEntry (deleteEntry c.entries kev) key
            ⟨now, now + ttl, response, now, 1, ttl⟩ ∧
        (c.Set key response ttl now).entries.length = c.entries.length) := by
  constructor
  · intro ops t0 hkeys hchain
    have hbase : cacheWF NewDNSCache t0 := by
      refine ⟨by simp [NewDNSCache], by simp [NewDNSCache], by simp [NewDNSCache], ?_, by simp [NewDNSCache]⟩
      simp [NewDNSCache, CACHE_MAX_SIZE]
    obtain ⟨t', hwf⟩ := applyOps_wf ops NewDNSCache t0 hbase hkeys hchain
    have hmax : (applyOps NewDNSCache ops).maxSize = CACHE_MAX_SIZE := by
      have hms : ∀ (l : List SetOp) (c : DNSCache),
          (applyOps c l).maxSize = c.maxSize := by
        intro l
        induction l with
        | nil => intro c; rfl
        | cons op rest ih =>
          intro c
          have : applyOps c (op :: rest) =
              applyOps (c.Set op.key op.response op.ttl op.now) rest := by
            simp [applyOps]
          rw [this, ih]
          rfl
      rw [hms ops NewDNSCache]
      rfl
    exact ⟨hmax ▸ hwf.2.2.1, hwf.1⟩
  · intro c key response ttl now hwf hkey hlook hcap
    obtain ⟨hnodup, hkeys, hsize, hposmax, hbounds⟩ := hwf
    have hne : c.entries ≠ [] := by
      intro h0
      rw [h0] at hcap
      simp at hcap
      omega
    obtain ⟨kev, eev, hmem, hworst, hevict⟩ :=
      evictOne_removes_worst c.entries now hne hkeys hbounds
    refine ⟨kev, eev, hmem, hworst, ?_, ?_⟩
    · rw [DNSCache.Set, if_pos ⟨hcap, hlook⟩, hevict]
    · rw [DNSCache.Set, if_pos ⟨hcap, hlook⟩, hevict, writeEntry_length]
      have hkevmem : kev ∈ c.entries.map Prod.fst :=
        List.mem_map_of_mem Prod.fst hmem
      have hlen1 : (deleteEntry c.entries kev).length + 1 = c.entries.length :=
        length_deleteEntry_of_mem hnodup hkevmem
      have hkeyB : lookupEntry (deleteEntry c.entries kev) key = none := by
        rw [lookupEntry_eq_none_iff]
        intro p hp
        exact (lookupEntry_eq_none_iff _ _).mp hlook p
          ((deleteEntry_sublist _ _).mem hp)
      rw [deleteEntry_eq_self hkeyB]
      omega

theorem claim_C4_witness :
    ((applyOps NewDNSCache [⟨"a", [1], 60, 0⟩, ⟨"b", [2], 60, 1⟩]).entries.length ≤
        CACHE_MAX_SIZE ∧
      ((applyOps NewDNSCache [⟨"a", [1], 60, 0⟩, ⟨"b", [2], 60, 1⟩]).entries.map
          Prod.fst).Nodup) ∧
    (∃ kev eev, (kev, eev) ∈ cacheFullK.entries ∧
      (∀ p ∈ cacheFullK.entries, p.2.score 10 ≤ eev.score 10) ∧
      (cacheFullK.Set "x" [9] 60 10).entries =
        writeEntry (deleteEntry cacheFullK.entries kev) "x"
          ⟨10, 10 + 60, [9], 10, 1, 60⟩ ∧
      (cacheFullK.Set "x" [9] 60 10).entries.length =
        cacheFullK.entries.length) :=
  ⟨claim_C4_amended_bounded_eviction.1 [⟨"a", [1], 60, 0⟩, ⟨"b", [2], 60, 1⟩] 0
      (by decide)
      (List.Chain.cons (by decide) (List.Chain.cons (by decide) List.Chain.nil)),
   claim_C4_amended_bounded_eviction.2 cacheFullK "x" [9] 60 10
      (by unfold cacheWF; exact ⟨by decide, by decide, by decide, by decide, by decide⟩)
      (by decide) (by decide) (by decide)⟩

theorem repChar_length (n : Nat) : (repChar n).length = n := by
  simp [repChar, String.length]

theorem repChar_inj {m n : Nat} (h : repChar m = repChar n) : m = n := by
  have hlen := congrArg String.length h
  simpa [repChar_length] using hlen

theorem set_fresh_under_cap {c : DNSCache} {key : String} {r : List Nat}
    {ttl : Nat} {now : Int}
    (hlook : lookupEntry c.entries key = none)
    (hlt : c.entries.length < c.maxSize) :
    c.Set key r ttl now = ⟨(key, freshEntry r ttl now) :: c.entries, c.maxSize⟩ := by
  rw [DNSCache.Set, if_neg (by intro hand; omega)]
  have hdel : deleteEntry c.entries key = c.entries := deleteEntry_eq_self hlook
  show (⟨(key, freshEntry r ttl now) :: deleteEntry c.entries key,
    c.maxSize⟩ : DNSCache) = _
  rw [hdel]

theorem stateList_mem {n : Nat} {p : String × CacheEntry}
    (hp : p ∈ stateList n) :
    p = (repChar 0, freshEntry [] 60 0) ∨
      ∃ j, 1 ≤ j ∧ j ≤ n ∧ p = (repChar j, freshEntry [] 60 1) := by
  rw [stateList, List.mem_append] at hp
  rcases hp with hp | hp
  · rw [List.mem_map] at hp
    obtain ⟨i, hi, hpi⟩ := hp
    rw [List.mem_reverse, List.mem_range] at hi
    exact Or.inr ⟨i + 1, by omega, by omega, hpi.symm⟩
  · simp at hp
    exact Or.inl (by rw [hp])

theorem stateList_length (n : Nat) : (stateList n).length = n + 1 := by
  simp [stateList]

theorem stateList_fresh {n m : Nat} (hm : n < m) :
    lookupEntry (stateList n) (repChar m) = none := by
  rw [lookupEntry_eq_none_iff]
  intro p hp heq
  rcases stateList_mem hp with h | ⟨j, h1, h2, h⟩
  · rw [h] at heq
    have := repChar_inj heq
    omega
  · rw [h] at heq
    have := repChar_inj heq
    omega

theorem stateList_succ (n : Nat) :
    stateList (n + 1) = (repChar (n + 1), freshEntry [] 60 1) :: stateList n := by
  rw [stateList, stateList, List.range_succ, List.reverse_append, List.map_append]
  rfl

theorem fill_state :
    ∀ n, n ≤ 1023 →
      applyOps (NewDNSCache.Set (repChar 0) [] 60 0)
          ((List.range n).map (fun i => (⟨repChar (i + 1), [], 60, 1⟩ : SetOp))) =
        ⟨stateList n, 1024⟩ := by
  have hc0 : NewDNSCache.Set (repChar 0) [] 60 0 = ⟨stateList 0, 1024⟩ := by
    rw [set_fresh_under_cap (by rfl) (by simp [NewDNSCache, CACHE_MAX_SIZE])]
    rfl
  intro n
  induction n with
  | zero =>
    intro _
    simpa [applyOps] using hc0
  | succ n ih =>
    intro hn
    rw [List.range_succ, List.map_append]
    have happ : ∀ (l1 l2 : List SetOp) (c : DNSCache),
        applyOps c (l1 ++ l2) = applyOps (applyOps c l1) l2 := by
      intro l1 l2 c
      simp [applyOps]
    rw [happ, ih (by omega)]
    show (DNSCache.Set ⟨stateList n, 1024⟩ (repChar (n + 1)) [] 60 1) = _
    rw [set_fresh_under_cap (stateList_fresh (by omega))
      (by show (stateList n).length < 1024; rw [stateList_length]; omega)]
    rw [stateList_succ]

/-- C4 is false as stated: starting from `NewDNSCache` (bound 1024), `Set`
the empty-string key at instant 0, fill to capacity with 1023 distinct keys
at instant 1, then `Set` one more fresh key at instant 2.  The oldest entry
— the one `evictOne` scores highest — is keyed by `""`, which `evictOne`
treats as its "nothing found" sentinel and refuses to delete, so no entry
is evicted and the cache ends with 1025 entries, exceeding its configured
maximum. -/
theorem claim_C4_counterexample :
    NewDNSCache.maxSize = CACHE_MAX_SIZE ∧
    ¬ ((applyOps NewDNSCache overflowOps).entries.length ≤
        (applyOps NewDNSCache overflowOps).maxSize) := by
  refine ⟨rfl, ?_⟩
  have happ : ∀ (l1 l2 : List SetOp) (c : DNSCache),
      applyOps c (l1 ++ l2) = applyOps (applyOps c l1) l2 := by
    intro l1 l2 c
    simp [applyOps]
  have happ2 : ∀ (op : SetOp) (l : List SetOp) (c : DNSCache),
      applyOps c (op :: l) =
        applyOps (c.Set op.key op.response op.ttl op.now) l := by
    intro op l c
    rw [applyOps, applyOps, List.foldl_cons]
  have h1 : applyOps NewDNSCache overflowOps =
      DNSCache.Set ⟨stateList 1023, 1024⟩ "x" [] 60 2 := by
    rw [show overflowOps = (⟨repChar 0, [], 60, 0⟩ : SetOp) ::
      (fillOps ++ [⟨"x", [], 60, 2⟩]) from rfl]
    rw [happ2, happ]
    dsimp only
    rw [show fillOps =
      (List.range 1023).map (fun i => (⟨repChar (i + 1), [], 60, 1⟩ : SetOp))
      from rfl]
    rw [fill_state 1023 (le_refl _)]
    rw [happ2]
    dsimp only
    rfl
  rw [h1]
  have hlook : lookupEntry (stateList 1023) "x" = none := by
    rw [lookupEntry_eq_none_iff]
    intro p hp heq
    rcases stateList_mem hp with h | ⟨j, h1j, h2j, h⟩
    · rw [h] at heq
      exact absurd heq (by decide)
    · rw [h] at heq
      have hlen := congrArg String.length heq
      rw [repChar_length] at hlen
      have hj1 : j = 1 := by simpa using hlen
      rw [hj1] at heq
      exact absurd heq (by decide)
  obtain ⟨hcase, hmono, hub⟩ := foldl_worstStep_spec 2 (stateList 1023) ("", -1)
  have hmem0 : ((repChar 0, freshEntry [] 60 0) : String × CacheEntry) ∈
      stateList 1023 := by
    rw [stateList, List.mem_append]
    exact Or.inr (by simp)
  have hscore0 : (freshEntry [] 60 0).score 2 = 1 := by
    simp [CacheEntry.score, freshEntry]
    norm_num
  have hscore1 : (freshEntry [] 60 1).score 2 = 1 / 2 := by
    simp [CacheEntry.score, freshEntry]
    norm_num
  have hub0 : (1 : ℚ) ≤ (List.foldl (worstStep 2) ("", -1) (stateList 1023)).2 := by
    have hb := hub _ hmem0
    rwa [hscore0] at hb
  have hworstkey : (List.foldl (worstStep 2) ("", -1) (stateList 1023)).1 = "" := by
    rcases hcase with hcase | ⟨e, hmem, hsc⟩
    · rw [hcase]
    · rcases stateList_mem hmem with h | ⟨j, h1j, h2j, h⟩
      · rw [Prod.mk.injEq] at h
        rw [h.1]
        rfl
      · exfalso
        rw [Prod.mk.injEq] at h
        have hs : e.score 2 = 1 / 2 := by rw [h.2, hscore1]
        rw [hsc] at hs
        rw [hs] at hub0
        norm_num at hub0
  have hevict : evictOne (stateList 1023) 2 = stateList 1023 := by
    rw [evictOne, if_neg (by simp [hworstkey])]
  rw [DNSCache.Set, if_pos
    ⟨by show (1024 : Nat) ≤ (stateList 1023).length; rw [stateList_length],
     hlook⟩]
  show ¬ ((writeEntry (evictOne (stateList 1023) 2) "x"
      (freshEntry [] 60 2)).length ≤ 1024)
  rw [hevict, writeEntry_length, deleteEntry_eq_self hlook, stateList_length]
  omega

end FlashDNS
